import Mathlib

/-!
Shallow embedding of the lesson-checker core (`src/tahvel.py`):
`process_planned_dates` (DateBucketer), `process_journal_entries`
(EntryClassifier) and `compare_entries` (Reconciler).

Python dicts that preserve insertion order are modelled as association
lists `List (String × α)` with unique keys; `dict(sorted(d.items()))`
becomes sorting the association list by key.  Python integers are `Int`.
A heterogeneous JSON record becomes the structure `RawEntry`, whose field
types capture the shapes the code distinguishes (missing field, bare
string, object with an optional `code`, non-numeric lesson count).
-/

/-- The `entryType` field of a raw journal-entry record: missing, a bare
string, or an object with an optional `code` sub-field. -/
inductive ETField where
  | missing : ETField
  | str : String → ETField
  | obj : Option String → ETField
deriving Repr, DecidableEq

/-- The `lessons` field of a raw record: missing (defaults to 0), a Python
integer, or a value of non-numeric type (adding it raises `TypeError`). -/
inductive LessonsField where
  | missing : LessonsField
  | num : Int → LessonsField
  | nonnum : LessonsField
deriving Repr, DecidableEq

/-- A raw journal-entry record as consumed by `process_journal_entries`. -/
structure RawEntry where
  entryDate : Option String
  lessons : LessonsField
  content : Option String
  entryType : ETField
deriving Repr, DecidableEq

/-- The per-date aggregate built by `process_journal_entries`
(`entry_map[date_str]` in the source). -/
structure DateAggregate where
  entries : List RawEntry
  total_lessons : Int
  content : String
  regular_lessons : Int
  independent_lessons : Int
  other_lessons : Int
  entry_types : List (String × Int)
deriving Repr, DecidableEq

/-- The per-date record built by `compare_entries`
(`comparison_results[date]` in the source). -/
structure ComparisonRecord where
  planned_lessons : Nat
  entered_lessons : Int
  regular_lessons : Int
  independent_lessons : Int
  other_lessons : Int
  content : String
  times : List String
  entry_types : List (String × Int)
  all_inserted : Bool
  has_journal_entry : Bool
deriving Repr, DecidableEq

/-- Dictionary lookup `d.get(k)` on an association list. -/
def alistFind {α : Type} : List (String × α) → String → Option α
  | [], _ => none
  | (k, v) :: rest, key => if k = key then some v else alistFind rest key

/-- The key list of an association list (iteration order of the dict). -/
def keysOf {α : Type} (m : List (String × α)) : List String :=
  m.map Prod.fst

/-- Executable lexicographic `≤` on character lists (the order Python uses
to compare strings). -/
def listCharLe : List Char → List Char → Bool
  | [], _ => true
  | _ :: _, [] => false
  | a :: as, b :: bs => if a = b then listCharLe as bs else decide (a < b)

/-- Executable lexicographic `≤` on strings. -/
def strLe (a b : String) : Bool := listCharLe a.data b.data

/-- Ordered insertion with respect to a boolean comparison. -/
def insertLe {α : Type} (le : α → α → Bool) (x : α) : List α → List α
  | [] => [x]
  | y :: ys => if le x y then x :: y :: ys else y :: insertLe le x ys

/-- A sort with respect to a boolean comparison (Python's `sorted`; any
correct sort produces the same result since the comparisons used here are
total, and on the lists sorted by the program either the elements are
distinct under the comparison or equal as values, so stability cannot be
observed). -/
def sortLe {α : Type} (le : α → α → Bool) : List α → List α
  | [] => []
  | x :: xs => insertLe le x (sortLe le xs)

/-- `dict(sorted(d.items()))`: sort an association list by key. -/
def sortByKey {α : Type} (m : List (String × α)) : List (String × α) :=
  sortLe (fun p q => strLe p.1 q.1) m

/-- Python `len` on a string (number of characters). -/
def strLen (s : String) : Nat := s.data.length

/-- Python slice `s[:n]` on a string. -/
def strTake (s : String) (n : Nat) : String := String.mk (s.data.take n)

/-- Python string concatenation `a + b`. -/
def strCat (a b : String) : String := String.mk (a.data ++ b.data)

/-- `if content and len(content) > 40: content = content[:37] + "..."`. -/
def truncateContent (c : String) : String :=
  if c ≠ "" ∧ 40 < strLen c then strCat (strTake c 37) "..." else c

/-- `s.replace('Z', '+00:00')` on the character list. -/
def replaceZList : List Char → List Char
  | [] => []
  | c :: cs =>
    if c = 'Z' then '+' :: '0' :: '0' :: ':' :: '0' :: '0' :: replaceZList cs
    else c :: replaceZList cs

/-- `s.replace('Z', '+00:00')`. -/
def replaceZ (s : String) : String := String.mk (replaceZList s.data)

/-- Numeric value of a decimal digit character, `none` otherwise. -/
def digitVal (c : Char) : Option Nat :=
  if c.isDigit then some (c.toNat - 48) else none

/-- Two-digit decimal value. -/
def twoDigitVal (a b : Char) : Option Nat :=
  match digitVal a, digitVal b with
  | some x, some y => some (10 * x + y)
  | _, _ => none

/-- Gregorian leap-year test, as used by `datetime`. -/
def isLeapYear (y : Nat) : Bool :=
  (y % 4 == 0 && y % 100 != 0) || y % 400 == 0

/-- Number of days in a month, as validated by `datetime`. -/
def daysInMonth (y m : Nat) : Nat :=
  if m = 2 then (if isLeapYear y then 29 else 28)
  else if m = 4 ∨ m = 6 ∨ m = 9 ∨ m = 11 then 30
  else 31

/-- A valid trailing UTC offset for `datetime.fromisoformat`: either
nothing, or `±HH:MM`. -/
def validOffset : List Char → Bool
  | [] => true
  | sign :: h1 :: h2 :: ':' :: m1 :: m2 :: [] =>
    (sign = '+' || sign = '-') &&
    (match twoDigitVal h1 h2, twoDigitVal m1 m2 with
     | some hh, some mm => hh ≤ 23 && mm ≤ 59
     | _, _ => false)
  | _ => false

/-- Parse and validate the `HH:MM:SS[±HH:MM]` part after the date
separator; returns the eight time-of-day characters (what
`strftime('%H:%M:%S')` would print back). -/
def parseTimePart : List Char → Option (List Char)
  | h1 :: h2 :: ':' :: m1 :: m2 :: ':' :: s1 :: s2 :: rest =>
    match twoDigitVal h1 h2, twoDigitVal m1 m2, twoDigitVal s1 s2 with
    | some hh, some mm, some ss =>
      if hh ≤ 23 ∧ mm ≤ 59 ∧ ss ≤ 59 ∧ validOffset rest then
        some [h1, h2, ':', m1, m2, ':', s1, s2]
      else none
    | _, _, _ => none
  | _ => none

/-- `datetime.fromisoformat` followed by `strftime('%Y-%m-%d')` and
`strftime('%H:%M:%S')`: parse `YYYY-MM-DD[{T,space}HH:MM:SS[±HH:MM]]` and
return the normalized date string and time-of-day string, or `none` when
the string does not conform (Python raises `ValueError`). -/
def fromisoChars : List Char → Option (String × String)
  | y1 :: y2 :: y3 :: y4 :: '-' :: mo1 :: mo2 :: '-' :: d1 :: d2 :: rest =>
    match digitVal y1, digitVal y2, digitVal y3, digitVal y4,
          twoDigitVal mo1 mo2, twoDigitVal d1 d2 with
    | some a, some b, some c, some d, some mo, some da =>
      let year := 1000 * a + 100 * b + 10 * c + d
      if 1 ≤ year ∧ 1 ≤ mo ∧ mo ≤ 12 ∧ 1 ≤ da ∧ da ≤ daysInMonth year mo then
        match rest with
        | [] => some (String.mk [y1, y2, y3, y4, '-', mo1, mo2, '-', d1, d2], "00:00:00")
        | sep :: trest =>
          if sep = 'T' ∨ sep = ' ' then
            match parseTimePart trest with
            | some tchars =>
              some (String.mk [y1, y2, y3, y4, '-', mo1, mo2, '-', d1, d2], String.mk tchars)
            | none => none
          else none
      else none
    | _, _, _, _, _, _ => none
  | _ => none

/-- `datetime.fromisoformat` on a string, reported as date and time parts. -/
def fromisoformat (s : String) : Option (String × String) :=
  fromisoChars s.data

/-- `date_map[date_str].append(time_str)` on a `defaultdict(list)`:
append to the key's list, creating the key at the end if absent. -/
def appendTime : List (String × List String) → String → String → List (String × List String)
  | [], d, t => [(d, [t])]
  | (k, ts) :: rest, d, t =>
    if k = d then (k, ts ++ [t]) :: rest else (k, ts) :: appendTime rest d t

/-- The loop of `process_planned_dates`: bucket each timestamp, failing
(as Python propagates `ValueError`) on the first non-conforming string. -/
def buildPlanned : List String → List (String × List String) → Option (List (String × List String))
  | [], m => some m
  | s :: rest, m =>
    match fromisoformat (replaceZ s) with
    | none => none
    | some (d, t) => buildPlanned rest (appendTime m d t)

/-- `process_planned_dates` (DateBucketer): bucket ISO timestamps by
calendar date, sort each date's time list, sort the mapping by date.
Returns `none` when some timestamp fails to parse. -/
def process_planned_dates (planned : List String) : Option (List (String × List String)) :=
  (buildPlanned planned []).map (fun m =>
    sortByKey (m.map (fun pr => (pr.1, sortLe strLe pr.2))))

/-- Normalization of the `entryType` field to a code string:
`entry.get('entryType', 'UNKNOWN')`, then `.get('code', 'UNKNOWN')` when
the value is a dict, else the value itself. -/
def normType : ETField → String
  | ETField.missing => "UNKNOWN"
  | ETField.str s => s
  | ETField.obj (some c) => c
  | ETField.obj none => "UNKNOWN"

/-- `entry_types[entry_type] += lessons_count` (with `= 0` initialization
when the type code is new). -/
def histAdd : List (String × Int) → String → Int → List (String × Int)
  | [], t, n => [(t, n)]
  | (k, v) :: rest, t, n =>
    if k = t then (k, v + n) :: rest else (k, v) :: histAdd rest t n

/-- The fresh aggregate created for a date's first record. -/
def initAggregate (c : String) : DateAggregate :=
  { entries := [], total_lessons := 0, content := c, regular_lessons := 0,
    independent_lessons := 0, other_lessons := 0, entry_types := [] }

/-- `if date_str not in entry_map: entry_map[date_str] = {...}`. -/
def ensureKey (m : List (String × DateAggregate)) (k : String) (c : String) :
    List (String × DateAggregate) :=
  if (alistFind m k).isSome then m else m ++ [(k, initAggregate c)]

/-- In-place update of an existing key's aggregate. -/
def updateAt : List (String × DateAggregate) → String → (DateAggregate → DateAggregate) →
    List (String × DateAggregate)
  | [], _, _ => []
  | (k, a) :: rest, key, f =>
    if k = key then (k, f a) :: rest else (k, a) :: updateAt rest key f

/-- The count accumulation of one record: `total_lessons +=`, routing into
regular/independent/other by the normalized type, and the type histogram. -/
def addCounts (a : DateAggregate) (t : String) (n : Int) : DateAggregate :=
  let a1 := { a with total_lessons := a.total_lessons + n }
  let a2 :=
    if t = "SISSEKANNE_T" then { a1 with regular_lessons := a1.regular_lessons + n }
    else if t = "SISSEKANNE_I" then { a1 with independent_lessons := a1.independent_lessons + n }
    else { a1 with other_lessons := a1.other_lessons + n }
  { a2 with entry_types := histAdd a2.entry_types t n }

/-- One iteration of the `process_journal_entries` loop.  A falsy or
unparseable `entryDate` skips the record before any mutation.  Otherwise
the bucket is created (with this record's truncated content) if absent and
the raw record appended; then `total_lessons += lessons_count` — when the
lessons value is non-numeric this raises `TypeError`, which the
`except (ValueError, TypeError)` clause catches, so the mutations made so
far persist and no count is accumulated. -/
def processEntry (m : List (String × DateAggregate)) (e : RawEntry) :
    List (String × DateAggregate) :=
  match e.entryDate with
  | none => m
  | some d =>
    if d = "" then m
    else
      match fromisoformat (replaceZ d) with
      | none => m
      | some (dateStr, _) =>
        let content := truncateContent (match e.content with | none => "N/A" | some s => s)
        let t := normType e.entryType
        let m1 := ensureKey m dateStr content
        let m2 := updateAt m1 dateStr (fun a => { a with entries := a.entries ++ [e] })
        match e.lessons with
        | LessonsField.nonnum => m2
        | LessonsField.missing => updateAt m2 dateStr (fun a => addCounts a t 0)
        | LessonsField.num n => updateAt m2 dateStr (fun a => addCounts a t n)

/-- `process_journal_entries` (EntryClassifier): fold all records into the
per-date aggregates, then sort the mapping by date. -/
def process_journal_entries (l : List RawEntry) : List (String × DateAggregate) :=
  sortByKey (l.foldl processEntry [])

/-- The ComparisonRecord built for a date present in the planned mapping,
from its time list and the (optional) aggregate found for that date. -/
def mkPlannedRecord (times : List String) (jd : Option DateAggregate) : ComparisonRecord :=
  let regular := match jd with | none => 0 | some a => a.regular_lessons
  { planned_lessons := times.length
    entered_lessons := match jd with | none => 0 | some a => a.total_lessons
    regular_lessons := regular
    independent_lessons := match jd with | none => 0 | some a => a.independent_lessons
    other_lessons := match jd with | none => 0 | some a => a.other_lessons
    content := match jd with | none => "N/A" | some a => a.content
    times := times
    entry_types := match jd with | none => [] | some a => a.entry_types
    all_inserted := decide ((times.length : Int) ≤ regular)
    has_journal_entry := jd.isSome }

/-- The ComparisonRecord synthesized for a date that has journal entries
but no planned slots. -/
def mkSynthRecord (a : DateAggregate) : ComparisonRecord :=
  { planned_lessons := 0
    entered_lessons := a.total_lessons
    regular_lessons := a.regular_lessons
    independent_lessons := a.independent_lessons
    other_lessons := a.other_lessons
    content := a.content
    times := []
    entry_types := a.entry_types
    all_inserted := true
    has_journal_entry := true }

/-- `compare_entries` (Reconciler): one record per planned date, then one
synthesized record per entry date not already present, sorted by date. -/
def compare_entries (p : List (String × List String)) (e : List (String × DateAggregate)) :
    List (String × ComparisonRecord) :=
  let r1 := p.map (fun pr => (pr.1, mkPlannedRecord pr.2 (alistFind e pr.1)))
  let r2 := (e.filter (fun pr => (alistFind p pr.1).isNone)).map
    (fun pr => (pr.1, mkSynthRecord pr.2))
  sortByKey (r1 ++ r2)

/-! ### Lemmas about the boolean insertion sort -/

theorem insertLe_perm {α : Type} (le : α → α → Bool) (x : α) :
    ∀ l : List α, List.Perm (insertLe le x l) (x :: l)
  | [] => List.Perm.refl _
  | y :: ys => by
    simp only [insertLe]
    split
    · exact List.Perm.refl _
    · exact ((insertLe_perm le x ys).cons y).trans (List.Perm.swap x y ys)

theorem sortLe_perm {α : Type} (le : α → α → Bool) : ∀ l : List α, List.Perm (sortLe le l) l
  | [] => List.Perm.refl _
  | x :: xs => (insertLe_perm le x (sortLe le xs)).trans ((sortLe_perm le xs).cons x)

theorem pairwise_insertLe {α : Type} (le : α → α → Bool)
    (total : ∀ a b, le a b = true ∨ le b a = true)
    (tr : ∀ a b c, le a b = true → le b c = true → le a c = true) (x : α) :
    ∀ l : List α, l.Pairwise (fun a b => le a b = true) →
      (insertLe le x l).Pairwise (fun a b => le a b = true)
  | [], _ => by simp [insertLe]
  | y :: ys, h => by
    rw [List.pairwise_cons] at h
    obtain ⟨hy, hys⟩ := h
    simp only [insertLe]
    split
    · rename_i hxy
      refine List.pairwise_cons.mpr ⟨?_, List.pairwise_cons.mpr ⟨hy, hys⟩⟩
      intro z hz
      rcases List.mem_cons.mp hz with rfl | hz
      · exact hxy
      · exact tr x y z hxy (hy z hz)
    · rename_i hxy
      have hyx : le y x = true := by
        rcases total x y with h' | h'
        · exact absurd h' hxy
        · exact h'
      refine List.pairwise_cons.mpr ⟨?_, pairwise_insertLe le total tr x ys hys⟩
      intro z hz
      rcases List.mem_cons.mp ((insertLe_perm le x ys).mem_iff.mp hz) with rfl | hz
      · exact hyx
      · exact hy z hz

theorem pairwise_sortLe {α : Type} (le : α → α → Bool)
    (total : ∀ a b, le a b = true ∨ le b a = true)
    (tr : ∀ a b c, le a b = true → le b c = true → le a c = true) :
    ∀ l : List α, (sortLe le l).Pairwise (fun a b => le a b = true)
  | [] => List.Pairwise.nil
  | x :: xs => pairwise_insertLe le total tr x _ (pairwise_sortLe le total tr xs)

/-! ### The executable string comparison agrees with the lexicographic order -/

theorem listCharLe_iff : ∀ x y : List Char, listCharLe x y = true ↔ ¬ y < x
  | [], y => by
    simp only [listCharLe]
    constructor
    · intro _
      exact List.Lex.not_nil_right _ y
    · intro _
      trivial
  | a :: as, [] => by
    constructor
    · intro h
      exact absurd h (by simp [listCharLe])
    · intro h
      exact absurd List.Lex.nil h
  | a :: as, b :: bs => by
    simp only [listCharLe]
    by_cases hab : a = b
    · subst hab
      rw [if_pos rfl, listCharLe_iff as bs]
      constructor
      · intro h hlt
        exact h (List.Lex.cons_iff.mp hlt)
      · intro h hlt
        exact h (List.Lex.cons hlt)
    · rw [if_neg hab, decide_eq_true_eq]
      constructor
      · intro h hlt
        cases hlt with
        | cons h' => exact hab rfl
        | rel h' => exact asymm h h'
      · intro h
        rcases lt_or_gt_of_ne hab with h' | h'
        · exact h'
        · exact absurd (List.Lex.rel (show b < a from h')) h

theorem strLe_iff (a b : String) : strLe a b = true ↔ a ≤ b := by
  rw [String.le_iff_toList_le, ← not_lt]
  exact listCharLe_iff a.data b.data

theorem strLe_total (a b : String) : strLe a b = true ∨ strLe b a = true := by
  rw [strLe_iff, strLe_iff]
  exact le_total a b

theorem strLe_trans {a b c : String} (h1 : strLe a b = true) (h2 : strLe b c = true) :
    strLe a c = true := by
  rw [strLe_iff] at *
  exact le_trans h1 h2

theorem strLt_of_strLe_of_ne {a b : String} (h : strLe a b = true) (hne : a ≠ b) : a < b :=
  lt_of_le_of_ne ((strLe_iff a b).mp h) hne

/-! ### Association-list lemmas -/

theorem alistFind_eq_none {α : Type} :
    ∀ (m : List (String × α)) (k : String), alistFind m k = none ↔ k ∉ keysOf m
  | [], k => by simp [alistFind, keysOf]
  | (k', v) :: rest, k => by
    simp only [alistFind, keysOf, List.map_cons, List.mem_cons]
    by_cases h : k' = k
    · subst h
      simp
    · rw [if_neg h]
      constructor
      · intro hr hmem
        rcases hmem with rfl | hmem
        · exact h rfl
        · exact (alistFind_eq_none rest k).mp hr hmem
      · intro hmem
        exact (alistFind_eq_none rest k).mpr (fun hk => hmem (Or.inr hk))

theorem mem_of_alistFind_eq_some {α : Type} :
    ∀ {m : List (String × α)} {k : String} {v : α}, alistFind m k = some v → (k, v) ∈ m
  | [], k, v, h => by simp [alistFind] at h
  | (k', v') :: rest, k, v, h => by
    simp only [alistFind] at h
    by_cases hk : k' = k
    · subst hk
      rw [if_pos rfl] at h
      injection h with h
      subst h
      exact List.mem_cons_self _ _
    · rw [if_neg hk] at h
      exact List.mem_cons_of_mem _ (mem_of_alistFind_eq_some h)

theorem alistFind_eq_some_of_mem {α : Type} :
    ∀ {m : List (String × α)}, (keysOf m).Nodup →
      ∀ {k : String} {v : α}, (k, v) ∈ m → alistFind m k = some v
  | [], _, k, v, h => by simp at h
  | (k', v') :: rest, hnd, k, v, h => by
    simp only [keysOf, List.map_cons, List.nodup_cons] at hnd
    rcases List.mem_cons.mp h with heq | hmem
    · injection heq with h1 h2
      subst h1; subst h2
      simp [alistFind]
    · have hk : k' ≠ k := by
        rintro rfl
        exact hnd.1 (List.mem_map_of_mem Prod.fst hmem)
      simp only [alistFind, if_neg hk]
      exact alistFind_eq_some_of_mem hnd.2 hmem

theorem alistFind_perm {α : Type} {m m' : List (String × α)} (h : List.Perm m m')
    (hnd : (keysOf m).Nodup) (k : String) : alistFind m k = alistFind m' k := by
  have hnd' : (keysOf m').Nodup := ((h.map Prod.fst).nodup_iff).mp hnd
  cases hfind : alistFind m k with
  | some v =>
    exact (alistFind_eq_some_of_mem hnd' (h.mem_iff.mp (mem_of_alistFind_eq_some hfind))).symm
  | none =>
    have h1 : k ∉ keysOf m := (alistFind_eq_none m k).mp hfind
    have h2 : k ∉ keysOf m' := fun hk => h1 ((h.map Prod.fst).mem_iff.mpr hk)
    exact ((alistFind_eq_none m' k).mpr h2).symm

theorem keysOf_sortByKey_perm {α : Type} (m : List (String × α)) :
    List.Perm (keysOf (sortByKey m)) (keysOf m) :=
  (sortLe_perm _ m).map Prod.fst

theorem alistFind_sortByKey {α : Type} (m : List (String × α)) (hnd : (keysOf m).Nodup)
    (k : String) : alistFind (sortByKey m) k = alistFind m k :=
  alistFind_perm (sortLe_perm _ m) ((keysOf_sortByKey_perm m).nodup_iff.mpr hnd) k

theorem pairwise_keys_sortByKey {α : Type} (m : List (String × α))
    (hnd : (keysOf m).Nodup) : (keysOf (sortByKey m)).Pairwise (fun a b => a < b) := by
  have hs : (sortByKey m).Pairwise (fun p q => strLe p.1 q.1 = true) :=
    pairwise_sortLe (fun p q : String × α => strLe p.1 q.1)
      (fun p q => strLe_total p.1 q.1)
      (fun p q r h1 h2 => strLe_trans h1 h2) m
  have hks : (keysOf (sortByKey m)).Pairwise (fun a b => strLe a b = true) :=
    hs.map Prod.fst (fun a b h => h)
  have hnd' : (keysOf (sortByKey m)).Nodup := (keysOf_sortByKey_perm m).nodup_iff.mpr hnd
  exact hks.imp₂ (fun a b hle hne => strLt_of_strLe_of_ne hle hne) hnd'

theorem alistFind_append {α : Type} :
    ∀ (m₁ m₂ : List (String × α)) (k : String),
      alistFind (m₁ ++ m₂) k =
        match alistFind m₁ k with
        | some v => some v
        | none => alistFind m₂ k
  | [], m₂, k => rfl
  | (k', v) :: rest, m₂, k => by
    by_cases h : k' = k
    · subst h
      simp [alistFind]
    · simp only [List.cons_append, alistFind, if_neg h]
      exact alistFind_append rest m₂ k

theorem alistFind_updateAt :
    ∀ (m : List (String × DateAggregate)) (key : String) (f : DateAggregate → DateAggregate)
      (k : String),
      alistFind (updateAt m key f) k =
        if key = k then (alistFind m k).map f else alistFind m k
  | [], key, f, k => by simp [updateAt, alistFind]
  | (k', a) :: rest, key, f, k => by
    by_cases h1 : k' = key
    · subst h1
      by_cases h2 : k' = k
      · subst h2
        simp [updateAt, alistFind]
      · simp [updateAt, alistFind, h2]
    · by_cases h2 : k' = k
      · subst h2
        have h3 : key ≠ k' := fun h => h1 h.symm
        simp [updateAt, alistFind, h1, h3]
      · simp [updateAt, alistFind, h1, h2, alistFind_updateAt rest key f k]

theorem alistFind_ensureKey (m : List (String × DateAggregate)) (key c k : String) :
    alistFind (ensureKey m key c) k =
      match alistFind m k with
      | some v => some v
      | none => if key = k then some (initAggregate c) else none := by
  unfold ensureKey
  by_cases h : (alistFind m key).isSome
  · rw [if_pos h]
    cases hf : alistFind m k with
    | some v => rfl
    | none =>
      have hkk : key ≠ k := by
        rintro rfl
        rw [hf] at h
        simp at h
      simp [hkk]
  · rw [if_neg h, alistFind_append]
    cases hf : alistFind m k with
    | some v => rfl
    | none => simp [alistFind]

theorem keysOf_updateAt :
    ∀ (m : List (String × DateAggregate)) (key : String) (f : DateAggregate → DateAggregate),
      keysOf (updateAt m key f) = keysOf m
  | [], _, _ => rfl
  | (k', a) :: rest, key, f => by
    by_cases h : k' = key
    · simp [updateAt, keysOf, h]
    · simp only [updateAt, if_neg h, keysOf, List.map_cons]
      rw [show (updateAt rest key f).map Prod.fst = keysOf (updateAt rest key f) from rfl,
        keysOf_updateAt rest key f]
      rfl

theorem keysOf_ensureKey (m : List (String × DateAggregate)) (key c : String) :
    keysOf (ensureKey m key c) =
      if (alistFind m key).isSome then keysOf m else keysOf m ++ [key] := by
  unfold ensureKey
  by_cases h : (alistFind m key).isSome
  · rw [if_pos h, if_pos h]
  · rw [if_neg h, if_neg h]
    simp [keysOf]

theorem alistFind_mapVal {α β : Type} (f : String → α → β) :
    ∀ (m : List (String × α)) (k : String),
      alistFind (m.map (fun pr => (pr.1, f pr.1 pr.2))) k = (alistFind m k).map (f k)
  | [], k => rfl
  | (k', v) :: rest, k => by
    by_cases h : k' = k
    · subst h
      simp [alistFind]
    · simp only [List.map_cons, alistFind, if_neg h]
      exact alistFind_mapVal f rest k

theorem alistFind_filter {α : Type} (q : String × α → Bool) :
    ∀ (m : List (String × α)) {k : String} {v : α}, alistFind m k = some v →
      q (k, v) = true → alistFind (m.filter q) k = some v
  | [], k, v, h, _ => by simp [alistFind] at h
  | (k', v') :: rest, k, v, h, hq => by
    by_cases hk : k' = k
    · subst hk
      rw [alistFind, if_pos rfl] at h
      injection h with h
      subst h
      rw [List.filter_cons, if_pos hq, alistFind, if_pos rfl]
    · rw [alistFind, if_neg hk] at h
      rw [List.filter_cons]
      by_cases hq' : q (k', v') = true
      · rw [if_pos hq', alistFind, if_neg hk]
        exact alistFind_filter q rest h hq
      · rw [if_neg hq']
        exact alistFind_filter q rest h hq

/-! ### One-step characterization of the EntryClassifier loop -/

/-- The date key a record lands in; `none` when the record is skipped
before any mutation (missing or falsy `entryDate`, or a date string that
fails to parse). -/
def entryKey (e : RawEntry) : Option String :=
  match e.entryDate with
  | none => none
  | some d => if d = "" then none else (fromisoformat (replaceZ d)).map Prod.fst

/-- The truncated content string a record carries (`"N/A"` when absent). -/
def contentOf (e : RawEntry) : String :=
  truncateContent (match e.content with | none => "N/A" | some s => s)

/-- The effect of one record on its date's (optional) previous aggregate:
create the bucket if needed, append the raw record, and accumulate counts
unless the lessons value is non-numeric (in which case the `TypeError` cuts
the iteration short right after the append). -/
def stepAgg (e : RawEntry) (prev : Option DateAggregate) : DateAggregate :=
  let a0 := match prev with | none => initAggregate (contentOf e) | some a => a
  let a1 := { a0 with entries := a0.entries ++ [e] }
  match e.lessons with
  | LessonsField.nonnum => a1
  | LessonsField.missing => addCounts a1 (normType e.entryType) 0
  | LessonsField.num n => addCounts a1 (normType e.entryType) n
theorem processEntry_eq_of_entryKey_none {m : List (String × DateAggregate)} {e : RawEntry}
    (h : entryKey e = none) : processEntry m e = m := by
  unfold entryKey at h
  unfold processEntry
  cases hd : e.entryDate with
  | none => rfl
  | some d =>
    rw [hd] at h
    by_cases hde : d = ""
    · simp only [hde, if_pos]
    · simp only [if_neg hde] at h
      simp only [if_neg hde]
      cases hp : fromisoformat (replaceZ d) with
      | none => simp
      | some pr =>
        rw [hp] at h
        simp at h

theorem alistFind_processEntry (m : List (String × DateAggregate)) (e : RawEntry) (k : String) :
    alistFind (processEntry m e) k =
      match entryKey e with
      | none => alistFind m k
      | some ds => if ds = k then some (stepAgg e (alistFind m ds)) else alistFind m k := by
  cases hek : entryKey e with
  | none => rw [processEntry_eq_of_entryKey_none hek]
  | some ds =>
    unfold entryKey at hek
    cases hd : e.entryDate with
    | none => simp [hd] at hek
    | some d =>
      rw [hd] at hek
      by_cases hde : d = ""
      · simp [hde] at hek
      · simp only [if_neg hde] at hek
        cases hp : fromisoformat (replaceZ d) with
        | none => simp [hp] at hek
        | some pr =>
          rw [hp] at hek
          obtain ⟨ds0, ts⟩ := pr
          rw [show Option.map Prod.fst (some (ds0, ts)) = some ds0 from rfl] at hek
          injection hek with hek
          have hek2 : ds = ds0 := hek.symm
          subst hek2
          unfold processEntry
          rw [hd]
          simp only [if_neg hde]
          rw [hp]
          by_cases hdk : ds = k
          · subst hdk
            cases hf : alistFind m ds <;> cases hl : e.lessons <;>
              simp [alistFind_updateAt, alistFind_ensureKey, stepAgg, hl, hf, contentOf]
          · cases hf : alistFind m k <;> cases hl : e.lessons <;>
              simp [alistFind_updateAt, alistFind_ensureKey, hdk, hl, hf]

theorem processEntry_eq_of_entryKey_some {m : List (String × DateAggregate)} {e : RawEntry}
    {ds : String} (h : entryKey e = some ds) :
    processEntry m e =
      match e.lessons with
      | LessonsField.nonnum =>
        updateAt (ensureKey m ds (contentOf e)) ds (fun a => { a with entries := a.entries ++ [e] })
      | LessonsField.missing =>
        updateAt (updateAt (ensureKey m ds (contentOf e)) ds
          (fun a => { a with entries := a.entries ++ [e] })) ds
          (fun a => addCounts a (normType e.entryType) 0)
      | LessonsField.num n =>
        updateAt (updateAt (ensureKey m ds (contentOf e)) ds
          (fun a => { a with entries := a.entries ++ [e] })) ds
          (fun a => addCounts a (normType e.entryType) n) := by
  unfold entryKey at h
  cases hd : e.entryDate with
  | none => simp [hd] at h
  | some d =>
    rw [hd] at h
    by_cases hde : d = ""
    · simp [hde] at h
    · simp only [if_neg hde] at h
      cases hp : fromisoformat (replaceZ d) with
      | none => simp [hp] at h
      | some pr =>
        rw [hp] at h
        obtain ⟨ds0, ts⟩ := pr
        rw [show Option.map Prod.fst (some (ds0, ts)) = some ds0 from rfl] at h
        injection h with h
        have h2 : ds = ds0 := h.symm
        subst h2
        unfold processEntry
        rw [hd]
        simp only [if_neg hde]
        rw [hp]
        cases hl : e.lessons <;> simp [hl, contentOf]

theorem keysOf_cons {α : Type} (p : String × α) (l : List (String × α)) :
    keysOf (p :: l) = p.1 :: keysOf l := rfl

theorem keysOf_processEntry (m : List (String × DateAggregate)) (e : RawEntry) :
    keysOf (processEntry m e) = keysOf m ∨
      ∃ ds, entryKey e = some ds ∧ alistFind m ds = none ∧
        keysOf (processEntry m e) = keysOf m ++ [ds] := by
  cases hek : entryKey e with
  | none => exact Or.inl (by rw [processEntry_eq_of_entryKey_none hek])
  | some ds =>
    rw [processEntry_eq_of_entryKey_some hek]
    by_cases hf : (alistFind m ds).isSome
    · refine Or.inl ?_
      cases e.lessons <;>
        simp [keysOf_updateAt, keysOf_ensureKey, hf]
    · refine Or.inr ⟨ds, rfl, Option.not_isSome_iff_eq_none.mp hf, ?_⟩
      cases e.lessons <;>
        simp [keysOf_updateAt, keysOf_ensureKey, hf]

theorem nodup_keys_processEntry {m : List (String × DateAggregate)} (e : RawEntry)
    (h : (keysOf m).Nodup) : (keysOf (processEntry m e)).Nodup := by
  rcases keysOf_processEntry m e with heq | ⟨ds, _, hfind, heq⟩
  · rw [heq]
    exact h
  · rw [heq, List.nodup_append]
    have hnm : ds ∉ keysOf m := (alistFind_eq_none m ds).mp hfind
    refine ⟨h, List.nodup_singleton ds, ?_⟩
    intro a ha hb
    rw [List.mem_singleton] at hb
    subst hb
    exact hnm ha

theorem nodup_keys_foldl :
    ∀ (l : List RawEntry) (m : List (String × DateAggregate)),
      (keysOf m).Nodup → (keysOf (l.foldl processEntry m)).Nodup
  | [], _, h => h
  | e :: rest, m, h =>
    nodup_keys_foldl rest (processEntry m e) (nodup_keys_processEntry e h)

/-! ### Content stability -/

/-- The first record of a list that lands on the given date key. -/
def firstFor (k : String) : List RawEntry → Option RawEntry
  | [] => none
  | e :: rest => if entryKey e = some k then some e else firstFor k rest

theorem addCounts_content (a : DateAggregate) (t : String) (n : Int) :
    (addCounts a t n).content = a.content := by
  simp only [addCounts]
  split
  · rfl
  · split <;> rfl

theorem stepAgg_content (e : RawEntry) (prev : Option DateAggregate) :
    (stepAgg e prev).content =
      match prev with
      | none => contentOf e
      | some a => a.content := by
  cases prev <;> cases hl : e.lessons <;>
    simp [stepAgg, hl, addCounts_content, initAggregate]

theorem content_foldl :
    ∀ (l : List RawEntry) (m : List (String × DateAggregate)) (k : String),
      (alistFind (l.foldl processEntry m) k).map DateAggregate.content =
        match alistFind m k with
        | some a => some a.content
        | none => (firstFor k l).map contentOf
  | [], m, k => by cases hf : alistFind m k <;> simp [firstFor, hf]
  | e :: rest, m, k => by
    simp only [List.foldl_cons]
    rw [content_foldl rest (processEntry m e) k, alistFind_processEntry]
    cases hek : entryKey e with
    | none => cases hf : alistFind m k <;> simp [firstFor, hek, hf]
    | some ds =>
      by_cases hdk : ds = k
      · subst hdk
        cases hf : alistFind m ds <;>
          simp [firstFor, hek, hf, stepAgg_content]
      · cases hf : alistFind m k <;>
          simp [firstFor, hek, hdk, hf]

/-! ### The count decomposition invariant -/

/-- Sum of the values of a type histogram. -/
def valsSum : List (String × Int) → Int
  | [] => 0
  | (_, v) :: rest => v + valsSum rest

/-- The decomposition invariant of a date aggregate: the total equals the
regular/independent/other split and the histogram total. -/
def aggWF (a : DateAggregate) : Prop :=
  a.total_lessons = a.regular_lessons + a.independent_lessons + a.other_lessons ∧
  a.total_lessons = valsSum a.entry_types

theorem valsSum_histAdd : ∀ (h : List (String × Int)) (t : String) (n : Int),
    valsSum (histAdd h t n) = valsSum h + n
  | [], t, n => by simp [histAdd, valsSum]
  | (k, v) :: rest, t, n => by
    by_cases hk : k = t
    · simp only [histAdd, if_pos hk, valsSum]
      ring
    · simp only [histAdd, if_neg hk, valsSum, valsSum_histAdd rest t n]
      ring

theorem aggWF_initAggregate (c : String) : aggWF (initAggregate c) := by
  constructor <;> simp [initAggregate, valsSum]

theorem aggWF_addCounts {a : DateAggregate} (h : aggWF a) (t : String) (n : Int) :
    aggWF (addCounts a t n) := by
  obtain ⟨h1, h2⟩ := h
  by_cases ht1 : t = "SISSEKANNE_T"
  · refine ⟨?_, ?_⟩ <;> simp [addCounts, ht1, valsSum_histAdd] <;> omega
  · by_cases ht2 : t = "SISSEKANNE_I"
    · refine ⟨?_, ?_⟩ <;> simp [addCounts, ht1, ht2, valsSum_histAdd] <;> omega
    · refine ⟨?_, ?_⟩ <;> simp [addCounts, ht1, ht2, valsSum_histAdd] <;> omega

theorem aggWF_stepAgg (e : RawEntry) {prev : Option DateAggregate}
    (h : ∀ a, prev = some a → aggWF a) : aggWF (stepAgg e prev) := by
  have key : ∀ a0 : DateAggregate, aggWF a0 →
      aggWF (match e.lessons with
        | LessonsField.nonnum => { a0 with entries := a0.entries ++ [e] }
        | LessonsField.missing =>
          addCounts { a0 with entries := a0.entries ++ [e] } (normType e.entryType) 0
        | LessonsField.num n =>
          addCounts { a0 with entries := a0.entries ++ [e] } (normType e.entryType) n) := by
    intro a0 h0
    have h1 : aggWF { a0 with entries := a0.entries ++ [e] } := h0
    cases e.lessons with
    | nonnum => exact h1
    | missing => exact aggWF_addCounts h1 _ 0
    | num n => exact aggWF_addCounts h1 _ n
  cases prev with
  | none => exact key _ (aggWF_initAggregate _)
  | some a => exact key _ (h a rfl)

theorem mem_updateAt {m : List (String × DateAggregate)} {key : String}
    {f : DateAggregate → DateAggregate} {pr : String × DateAggregate}
    (h : pr ∈ updateAt m key f) : pr ∈ m ∨ ∃ q ∈ m, pr = (q.1, f q.2) := by
  induction m with
  | nil => simp [updateAt] at h
  | cons hd tl ih =>
    obtain ⟨k', a⟩ := hd
    by_cases hk : k' = key
    · rw [updateAt, if_pos hk] at h
      rcases List.mem_cons.mp h with rfl | hmem
      · exact Or.inr ⟨(k', a), List.mem_cons_self _ _, rfl⟩
      · exact Or.inl (List.mem_cons_of_mem _ hmem)
    · rw [updateAt, if_neg hk] at h
      rcases List.mem_cons.mp h with rfl | hmem
      · exact Or.inl (List.mem_cons_self _ _)
      · rcases ih hmem with h' | ⟨q, hq, hq'⟩
        · exact Or.inl (List.mem_cons_of_mem _ h')
        · exact Or.inr ⟨q, List.mem_cons_of_mem _ hq, hq'⟩

theorem mem_ensureKey {m : List (String × DateAggregate)} {key c : String}
    {pr : String × DateAggregate} (h : pr ∈ ensureKey m key c) :
    pr ∈ m ∨ pr = (key, initAggregate c) := by
  unfold ensureKey at h
  by_cases hs : (alistFind m key).isSome
  · rw [if_pos hs] at h
    exact Or.inl h
  · rw [if_neg hs] at h
    rcases List.mem_append.mp h with h' | h'
    · exact Or.inl h'
    · rw [List.mem_singleton] at h'
      exact Or.inr h'

theorem aggWF_processEntry {m : List (String × DateAggregate)} (e : RawEntry)
    (h : ∀ pr ∈ m, aggWF pr.2) : ∀ pr ∈ processEntry m e, aggWF pr.2 := by
  intro pr hpr
  cases hek : entryKey e with
  | none =>
    rw [processEntry_eq_of_entryKey_none hek] at hpr
    exact h pr hpr
  | some ds =>
    rw [processEntry_eq_of_entryKey_some hek] at hpr
    have h1 : ∀ q ∈ ensureKey m ds (contentOf e), aggWF q.2 := by
      intro q hq
      rcases mem_ensureKey hq with hq' | hq'
      · exact h q hq'
      · rw [hq']
        exact aggWF_initAggregate _
    have h2 : ∀ q ∈ updateAt (ensureKey m ds (contentOf e)) ds
        (fun a => { a with entries := a.entries ++ [e] }), aggWF q.2 := by
      intro q hq
      rcases mem_updateAt hq with hq' | ⟨r, hr, hq'⟩
      · exact h1 q hq'
      · rw [hq']
        exact (h1 r hr : aggWF r.2)
    cases hl : e.lessons with
    | nonnum =>
      simp only [hl] at hpr
      exact h2 pr hpr
    | missing =>
      simp only [hl] at hpr
      rcases mem_updateAt hpr with hq' | ⟨r, hr, hq'⟩
      · exact h2 _ hq'
      · rw [hq']
        exact aggWF_addCounts (h2 r hr) _ 0
    | num n =>
      simp only [hl] at hpr
      rcases mem_updateAt hpr with hq' | ⟨r, hr, hq'⟩
      · exact h2 _ hq'
      · rw [hq']
        exact aggWF_addCounts (h2 r hr) _ n

theorem aggWF_foldl :
    ∀ (l : List RawEntry) (m : List (String × DateAggregate)),
      (∀ pr ∈ m, aggWF pr.2) → ∀ pr ∈ l.foldl processEntry m, aggWF pr.2
  | [], _, h => h
  | e :: rest, m, h => aggWF_foldl rest (processEntry m e) (aggWF_processEntry e h)

/-! ### DateBucketer lemmas -/

theorem keysOf_appendTime :
    ∀ (m : List (String × List String)) (d t : String),
      (d ∈ keysOf m ∧ keysOf (appendTime m d t) = keysOf m) ∨
      (d ∉ keysOf m ∧ keysOf (appendTime m d t) = keysOf m ++ [d])
  | [], d, t => Or.inr ⟨by simp [keysOf], rfl⟩
  | (k, ts) :: rest, d, t => by
    by_cases h : k = d
    · refine Or.inl ⟨?_, ?_⟩
      · rw [keysOf_cons]
        exact List.mem_cons.mpr (Or.inl h.symm)
      · simp [appendTime, h, keysOf_cons]
    · rcases keysOf_appendTime rest d t with ⟨hmem, heq⟩ | ⟨hmem, heq⟩
      · refine Or.inl ⟨List.mem_cons_of_mem k hmem, ?_⟩
        simp only [appendTime, if_neg h, keysOf_cons, heq]
      · refine Or.inr ⟨?_, ?_⟩
        · intro hc
          rcases List.mem_cons.mp hc with hc' | hc'
          · exact h hc'.symm
          · exact hmem hc'
        · simp only [appendTime, if_neg h, keysOf_cons, heq]
          rfl

theorem nodup_keys_appendTime {m : List (String × List String)} {d t : String}
    (h : (keysOf m).Nodup) : (keysOf (appendTime m d t)).Nodup := by
  rcases keysOf_appendTime m d t with ⟨_, heq⟩ | ⟨hmem, heq⟩
  · rw [heq]
    exact h
  · rw [heq, List.nodup_append]
    refine ⟨h, List.nodup_singleton d, ?_⟩
    intro a ha hb
    rw [List.mem_singleton] at hb
    subst hb
    exact hmem ha

theorem nodup_keys_buildPlanned :
    ∀ (l : List String) (m : List (String × List String)), (keysOf m).Nodup →
      ∀ m', buildPlanned l m = some m' → (keysOf m').Nodup
  | [], m, h, m', hb => by
    simp only [buildPlanned] at hb
    injection hb with hb
    rw [← hb]
    exact h
  | s :: rest, m, h, m', hb => by
    simp only [buildPlanned] at hb
    cases hp : fromisoformat (replaceZ s) with
    | none =>
      rw [hp] at hb
      exact absurd hb (by simp)
    | some pr =>
      rw [hp] at hb
      obtain ⟨d, t⟩ := pr
      exact nodup_keys_buildPlanned rest (appendTime m d t) (nodup_keys_appendTime h) m' hb

theorem buildPlanned_eq_none :
    ∀ (l : List String) (m : List (String × List String)),
      (∃ s ∈ l, fromisoformat (replaceZ s) = none) → buildPlanned l m = none
  | [], _, h => by simp at h
  | s :: rest, m, h => by
    obtain ⟨x, hx, hfail⟩ := h
    rcases List.mem_cons.mp hx with rfl | hx'
    · simp only [buildPlanned, hfail]
    · cases hp : fromisoformat (replaceZ s) with
      | none => simp only [buildPlanned, hp]
      | some pr =>
        obtain ⟨d, t⟩ := pr
        simp only [buildPlanned, hp]
        exact buildPlanned_eq_none rest (appendTime m d t) ⟨x, hx', hfail⟩

theorem replaceZList_append : ∀ (a b : List Char),
    replaceZList (a ++ b) = replaceZList a ++ replaceZList b
  | [], _ => rfl
  | c :: cs, b => by
    by_cases h : c = 'Z' <;> simp [replaceZList, h, replaceZList_append cs b]

theorem replaceZList_eq_self : ∀ (l : List Char), 'Z' ∉ l → replaceZList l = l
  | [], _ => rfl
  | c :: cs, h => by
    have h1 : ¬ c = 'Z' := fun hc => h (hc ▸ List.mem_cons_self c cs)
    have h2 : 'Z' ∉ cs := fun hc => h (List.mem_cons_of_mem c hc)
    simp [replaceZList, h1, replaceZList_eq_self cs h2]

/-! ### Reconciler lemmas -/

/-- The two halves of `comparison_results` before the final sort: one
record per planned date, then the synthesized records. -/
def compareParts (p : List (String × List String)) (e : List (String × DateAggregate)) :
    List (String × ComparisonRecord) :=
  p.map (fun pr => (pr.1, mkPlannedRecord pr.2 (alistFind e pr.1))) ++
    (e.filter (fun pr => (alistFind p pr.1).isNone)).map
      (fun pr => (pr.1, mkSynthRecord pr.2))

theorem compare_entries_eq (p : List (String × List String))
    (e : List (String × DateAggregate)) :
    compare_entries p e = sortByKey (compareParts p e) := rfl

theorem keysOf_compareParts (p : List (String × List String))
    (e : List (String × DateAggregate)) :
    keysOf (compareParts p e) =
      keysOf p ++ keysOf (e.filter (fun pr => (alistFind p pr.1).isNone)) := by
  unfold compareParts keysOf
  rw [List.map_append, List.map_map, List.map_map]
  rfl

theorem nodup_keys_compareParts {p : List (String × List String)}
    {e : List (String × DateAggregate)} (hp : (keysOf p).Nodup) (he : (keysOf e).Nodup) :
    (keysOf (compareParts p e)).Nodup := by
  rw [keysOf_compareParts, List.nodup_append]
  refine ⟨hp, ?_, ?_⟩
  · exact he.sublist ((List.filter_sublist e).map Prod.fst)
  · intro a ha hb
    rw [keysOf, List.mem_map] at hb
    obtain ⟨pr, hpr, rfl⟩ := hb
    have hq := List.of_mem_filter hpr
    rw [Option.isNone_iff_eq_none] at hq
    exact (alistFind_eq_none p pr.1).mp hq ha

theorem mem_keys_compareParts (p : List (String × List String))
    (e : List (String × DateAggregate)) (k : String) :
    k ∈ keysOf (compareParts p e) ↔ k ∈ keysOf p ∨ k ∈ keysOf e := by
  rw [keysOf_compareParts, List.mem_append]
  constructor
  · rintro (h | h)
    · exact Or.inl h
    · refine Or.inr ?_
      rw [keysOf, List.mem_map] at h
      obtain ⟨pr, hpr, rfl⟩ := h
      exact List.mem_map_of_mem Prod.fst (List.mem_of_mem_filter hpr)
  · rintro (h | h)
    · exact Or.inl h
    · by_cases hp' : k ∈ keysOf p
      · exact Or.inl hp'
      · refine Or.inr ?_
        rw [keysOf, List.mem_map] at h
        obtain ⟨pr, hpr, rfl⟩ := h
        refine List.mem_map_of_mem Prod.fst (List.mem_filter.mpr ⟨hpr, ?_⟩)
        rw [Option.isNone_iff_eq_none]
        exact (alistFind_eq_none p pr.1).mpr hp'

theorem alistFind_compare_planned {p : List (String × List String)}
    {e : List (String × DateAggregate)} (hp : (keysOf p).Nodup) (he : (keysOf e).Nodup)
    {d : String} {ts : List String} (hfound : alistFind p d = some ts) :
    alistFind (compare_entries p e) d = some (mkPlannedRecord ts (alistFind e d)) := by
  rw [compare_entries_eq,
    alistFind_sortByKey _ (nodup_keys_compareParts hp he), compareParts, alistFind_append]
  rw [alistFind_mapVal (fun k ts => mkPlannedRecord ts (alistFind e k)) p d, hfound]
  rfl

theorem alistFind_compare_synth {p : List (String × List String)}
    {e : List (String × DateAggregate)} (hp : (keysOf p).Nodup) (he : (keysOf e).Nodup)
    {d : String} {a : DateAggregate} (hnone : alistFind p d = none)
    (hfound : alistFind e d = some a) :
    alistFind (compare_entries p e) d = some (mkSynthRecord a) := by
  rw [compare_entries_eq,
    alistFind_sortByKey _ (nodup_keys_compareParts hp he), compareParts, alistFind_append]
  rw [alistFind_mapVal (fun k ts => mkPlannedRecord ts (alistFind e k)) p d, hnone]
  have hfil : alistFind (e.filter (fun pr => (alistFind p pr.1).isNone)) d = some a := by
    refine alistFind_filter _ e hfound ?_
    rw [Option.isNone_iff_eq_none]
    exact hnone
  rw [show (fun pr : String × DateAggregate => (pr.1, mkSynthRecord pr.2)) =
    (fun pr : String × DateAggregate => (pr.1, (fun _ a => mkSynthRecord a) pr.1 pr.2)) from rfl,
    alistFind_mapVal (fun _ a => mkSynthRecord a) _ d, hfil]
  rfl

/-! ### Claim theorems -/

theorem addCounts_regular (a : DateAggregate) (t : String) (n : Int) :
    (addCounts a t n).regular_lessons =
      if t = "SISSEKANNE_T" then a.regular_lessons + n else a.regular_lessons := by
  simp only [addCounts]
  by_cases h1 : t = "SISSEKANNE_T"
  · simp [h1]
  · by_cases h2 : t = "SISSEKANNE_I" <;> simp [h1, h2]

theorem stepAgg_regular_congr {e1 e2 : RawEntry} (prev : Option DateAggregate)
    (hl : e1.lessons = e2.lessons) (ht : normType e1.entryType = normType e2.entryType) :
    (stepAgg e1 prev).regular_lessons = (stepAgg e2 prev).regular_lessons := by
  unfold stepAgg
  rw [hl, ht]
  cases prev <;> cases e2.lessons <;> simp [addCounts_regular, initAggregate]

/-- C1: for planned-date and entry mappings with duplicate-free key sets
(as the bucketing steps produce), every date present in the planned
mapping gets a ComparisonRecord whose `planned_lessons` is the length of
that date's planned time list and whose `all_inserted` flag is true
exactly when `regular_lessons ≥ planned_lessons` — the completeness test
is the regular-lesson count against the planned count, not the total
entered count. -/
theorem C1_all_inserted_iff_regular_ge_planned
    (p : List (String × List String)) (e : List (String × DateAggregate))
    (hp : (keysOf p).Nodup) (he : (keysOf e).Nodup)
    (d : String) (ts : List String) (hfound : alistFind p d = some ts) :
    ∃ r : ComparisonRecord, alistFind (compare_entries p e) d = some r ∧
      r.planned_lessons = ts.length ∧
      (r.all_inserted = true ↔ (r.planned_lessons : Int) ≤ r.regular_lessons) := by
  refine ⟨mkPlannedRecord ts (alistFind e d), alistFind_compare_planned hp he hfound, rfl, ?_⟩
  simp [mkPlannedRecord]

/-- Witness for C1 at a concrete planned date with no journal entries. -/
theorem C1_witness :
    ∃ r : ComparisonRecord,
      alistFind (compare_entries [("2024-01-10", ["08:00:00", "09:00:00"])] [])
        "2024-01-10" = some r ∧
      r.planned_lessons = ["08:00:00", "09:00:00"].length ∧
      (r.all_inserted = true ↔ (r.planned_lessons : Int) ≤ r.regular_lessons) :=
  C1_all_inserted_iff_regular_ge_planned [("2024-01-10", ["08:00:00", "09:00:00"])] []
    (by decide) (by decide) "2024-01-10" ["08:00:00", "09:00:00"] (by decide)

/-- C2: the key set of the Reconciler output is exactly the union of the
planned-date keys and the entry keys, and for duplicate-free inputs no
date key is duplicated in the output. -/
theorem C2_union_of_keys (p : List (String × List String))
    (e : List (String × DateAggregate)) :
    (∀ k, k ∈ keysOf (compare_entries p e) ↔ k ∈ keysOf p ∨ k ∈ keysOf e) ∧
    ((keysOf p).Nodup → (keysOf e).Nodup → (keysOf (compare_entries p e)).Nodup) := by
  constructor
  · intro k
    rw [compare_entries_eq, (keysOf_sortByKey_perm (compareParts p e)).mem_iff]
    exact mem_keys_compareParts p e k
  · intro hp he
    rw [compare_entries_eq]
    exact (keysOf_sortByKey_perm _).nodup_iff.mpr (nodup_keys_compareParts hp he)

/-- Witness for C2 at concrete one-sided inputs. -/
theorem C2_witness :
    (keysOf (compare_entries [("2024-01-10", ["08:00:00"])]
      [("2024-03-05", initAggregate "N/A")])).Nodup :=
  (C2_union_of_keys _ _).2 (by decide) (by decide)

/-- C3: a date present in the entry mapping but absent from the planned
mapping gets a synthesized ComparisonRecord with zero planned lessons, an
empty time list, `all_inserted` and `has_journal_entry` true, and all
counts and content copied from the date's aggregate. -/
theorem C3_synthesized_record (p : List (String × List String))
    (e : List (String × DateAggregate)) (hp : (keysOf p).Nodup) (he : (keysOf e).Nodup)
    (d : String) (a : DateAggregate) (hnone : alistFind p d = none)
    (hfound : alistFind e d = some a) :
    alistFind (compare_entries p e) d = some
      { planned_lessons := 0
        entered_lessons := a.total_lessons
        regular_lessons := a.regular_lessons
        independent_lessons := a.independent_lessons
        other_lessons := a.other_lessons
        content := a.content
        times := []
        entry_types := a.entry_types
        all_inserted := true
        has_journal_entry := true } :=
  alistFind_compare_synth hp he hnone hfound

/-- Witness for C3 at a concrete entry-only date. -/
theorem C3_witness :
    alistFind (compare_entries [] [("2024-03-05", initAggregate "N/A")]) "2024-03-05" =
      some
        { planned_lessons := 0
          entered_lessons := 0
          regular_lessons := 0
          independent_lessons := 0
          other_lessons := 0
          content := "N/A"
          times := []
          entry_types := []
          all_inserted := true
          has_journal_entry := true } :=
  C3_synthesized_record [] [("2024-03-05", initAggregate "N/A")] (by decide) (by decide)
    "2024-03-05" (initAggregate "N/A") (by decide) (by decide)

/-- A record whose `lessons` value is of non-numeric type. -/
def badLessonsEntry : RawEntry :=
  { entryDate := some "2024-01-10T08:00:00", lessons := LessonsField.nonnum,
    content := some "Bad", entryType := ETField.missing }

/-- C4 counterexample: a record whose non-numeric lesson count makes
processing fail does NOT contribute nothing — it creates its date's key,
with its own content and itself in the entries list (the `TypeError` is
raised only after those mutations), contradicting the claim's "no key, no
content". -/
theorem C4_counterexample :
    process_journal_entries [badLessonsEntry] =
      [("2024-01-10",
        { entries := [badLessonsEntry], total_lessons := 0, content := "Bad",
          regular_lessons := 0, independent_lessons := 0, other_lessons := 0,
          entry_types := [] })] := by
  decide

/-- C4 (amended): a record with a missing or falsy `entryDate`, or whose
date fails to parse, is skipped without raising and contributes nothing,
and the remaining records are still processed; a record with a
non-numeric lesson count is skipped without raising and contributes to no
count, but it is appended to its date's entries list and, when it is the
first record for its date, it creates that date's bucket carrying its
truncated content. -/
theorem C4_amended_partial_skip :
    (∀ (e : RawEntry) (rest : List RawEntry), entryKey e = none →
      process_journal_entries (e :: rest) = process_journal_entries rest) ∧
    (∀ (m : List (String × DateAggregate)) (e : RawEntry) (ds : String),
      entryKey e = some ds → e.lessons = LessonsField.nonnum →
      (∀ k, k ≠ ds → alistFind (processEntry m e) k = alistFind m k) ∧
      (match alistFind m ds with
        | none => alistFind (processEntry m e) ds = some
            { entries := [e], total_lessons := 0, content := contentOf e,
              regular_lessons := 0, independent_lessons := 0, other_lessons := 0,
              entry_types := [] }
        | some a => alistFind (processEntry m e) ds =
            some { a with entries := a.entries ++ [e] })) := by
  constructor
  · intro e rest h
    unfold process_journal_entries
    rw [List.foldl_cons, processEntry_eq_of_entryKey_none h]
  · intro m e ds hek hl
    constructor
    · intro k hk
      rw [alistFind_processEntry, hek]
      show (if ds = k then some (stepAgg e (alistFind m ds)) else alistFind m k) = alistFind m k
      rw [if_neg (Ne.symm hk)]
    · cases hf : alistFind m ds with
      | none =>
        rw [alistFind_processEntry, hek]
        simp [stepAgg, hl, hf, initAggregate]
      | some a =>
        rw [alistFind_processEntry, hek]
        simp [stepAgg, hl, hf]

/-- Witness for C4's amended statement: a dateless record is dropped and
the rest of the batch still processed. -/
theorem C4_witness :
    process_journal_entries
      [{ entryDate := none, lessons := LessonsField.num 5, content := some "X",
         entryType := ETField.str "SISSEKANNE_T" },
       { entryDate := some "2024-01-10T08:00:00", lessons := LessonsField.num 1,
         content := none, entryType := ETField.str "SISSEKANNE_T" }] =
      process_journal_entries
        [{ entryDate := some "2024-01-10T08:00:00", lessons := LessonsField.num 1,
           content := none, entryType := ETField.str "SISSEKANNE_T" }] :=
  C4_amended_partial_skip.1 _ _ (by decide)

/-- C5: the `entryType` field is normalized to a bare code string — an
object contributes its `code` sub-field, a bare string is used directly,
and a missing field or an object without a `code` normalizes to
`"UNKNOWN"`; consequently a record carrying `{"code": c}` and one
carrying the bare string `c` contribute to `regular_lessons` identically
on every date. -/
theorem C5_normalization (m : List (String × DateAggregate)) (e : RawEntry)
    (c : String) (k : String) :
    normType ETField.missing = "UNKNOWN" ∧
    normType (ETField.obj none) = "UNKNOWN" ∧
    normType (ETField.str c) = c ∧
    normType (ETField.obj (some c)) = c ∧
    (alistFind (processEntry m { e with entryType := ETField.obj (some c) }) k).map
        DateAggregate.regular_lessons =
      (alistFind (processEntry m { e with entryType := ETField.str c }) k).map
        DateAggregate.regular_lessons := by
  refine ⟨rfl, rfl, rfl, rfl, ?_⟩
  rw [alistFind_processEntry, alistFind_processEntry]
  have hkey : entryKey { e with entryType := ETField.obj (some c) } =
      entryKey { e with entryType := ETField.str c } := rfl
  rw [hkey]
  cases hek : entryKey { e with entryType := ETField.str c } with
  | none => rfl
  | some ds =>
    show Option.map DateAggregate.regular_lessons
        (if ds = k then
          some (stepAgg { e with entryType := ETField.obj (some c) } (alistFind m ds))
        else alistFind m k) =
      Option.map DateAggregate.regular_lessons
        (if ds = k then
          some (stepAgg { e with entryType := ETField.str c } (alistFind m ds))
        else alistFind m k)
    by_cases hdk : ds = k
    · rw [if_pos hdk, if_pos hdk]
      simp only [Option.map_some']
      exact congrArg some
        (@stepAgg_regular_congr { e with entryType := ETField.obj (some c) }
          { e with entryType := ETField.str c } (alistFind m ds) rfl rfl)
    · rw [if_neg hdk, if_neg hdk]

/-- C6: content truncation — a content string longer than 40 characters
becomes its first 37 characters plus the 3-character ellipsis (exactly 40
characters), a string of at most 40 characters is unchanged, and an
absent content field defaults to `"N/A"`. -/
theorem C6_truncation :
    (∀ c : String, 40 < strLen c →
      truncateContent c = strCat (strTake c 37) "..." ∧
      strLen (truncateContent c) = 40) ∧
    (∀ c : String, strLen c ≤ 40 → truncateContent c = c) ∧
    (∀ e : RawEntry, e.content = none → contentOf e = "N/A") := by
  refine ⟨?_, ?_, ?_⟩
  · intro c hc
    have hne : c ≠ "" := by
      intro h
      rw [h] at hc
      simp [strLen] at hc
    have ht : truncateContent c = strCat (strTake c 37) "..." := by
      unfold truncateContent
      rw [if_pos ⟨hne, hc⟩]
    refine ⟨ht, ?_⟩
    rw [ht]
    show (c.data.take 37 ++ "...".data).length = 40
    rw [List.length_append, List.length_take]
    have hmin : min 37 c.data.length = 37 := by
      apply min_eq_left
      unfold strLen at hc
      omega
    rw [hmin]
    rfl
  · intro c hc
    unfold truncateContent
    rw [if_neg (fun h => absurd h.2 (by omega))]
  · intro e he
    unfold contentOf
    rw [he]
    decide

/-- Witness for C6 at a 50-character string, a short string, and a
contentless record. -/
theorem C6_witness :
    (truncateContent "01234567890123456789012345678901234567890123456789" =
        strCat (strTake "01234567890123456789012345678901234567890123456789" 37) "..." ∧
      strLen (truncateContent "01234567890123456789012345678901234567890123456789") = 40) ∧
    truncateContent "short" = "short" ∧
    contentOf { entryDate := some "2024-01-10T08:00:00", lessons := LessonsField.num 1,
                content := none, entryType := ETField.missing } = "N/A" :=
  ⟨C6_truncation.1 "01234567890123456789012345678901234567890123456789" (by decide),
   C6_truncation.2.1 "short" (by decide),
   C6_truncation.2.2 _ (by decide)⟩

/-- C7: for every input list and date key, the content recorded in the
EntryClassifier output is the truncated content of the first record that
landed on that date, unaffected by any later record on the same date (and
no content exists for a date no record landed on). -/
theorem C7_content_stability (l : List RawEntry) (k : String) :
    (alistFind (process_journal_entries l) k).map DateAggregate.content =
      (firstFor k l).map contentOf := by
  unfold process_journal_entries
  rw [alistFind_sortByKey _ (nodup_keys_foldl l [] (by simp [keysOf]))]
  exact content_foldl l [] k

/-- C8: the DateBucketer fails (propagating the parse error) whenever any
timestamp does not conform; a trailing literal `Z` is rewritten to a
`+00:00` offset before parsing; and an empty input yields an empty
mapping. -/
theorem C8_parse_error_policy :
    (∀ planned : List String, (∃ s ∈ planned, fromisoformat (replaceZ s) = none) →
      process_planned_dates planned = none) ∧
    (∀ l : List Char, 'Z' ∉ l →
      fromisoformat (replaceZ (String.mk (l ++ ['Z']))) =
        fromisoformat (String.mk (l ++ ['+', '0', '0', ':', '0', '0']))) ∧
    process_planned_dates [] = some [] := by
  refine ⟨?_, ?_, rfl⟩
  · intro planned h
    unfold process_planned_dates
    rw [buildPlanned_eq_none planned [] h]
    rfl
  · intro l hz
    unfold fromisoformat replaceZ
    rw [show (String.mk (l ++ ['Z'])).data = l ++ ['Z'] from rfl,
      replaceZList_append, replaceZList_eq_self l hz]
    rfl

/-- Witness for C8: one malformed timestamp fails the whole call. -/
theorem C8_witness :
    process_planned_dates ["2024-01-10T08:00:00", "not-a-date"] = none :=
  C8_parse_error_policy.1 ["2024-01-10T08:00:00", "not-a-date"]
    ⟨"not-a-date", by decide, by decide⟩

/-- C9: the date keys of the DateBucketer, EntryClassifier and Reconciler
outputs are in strictly ascending lexicographic order, and each date's
planned time list is in non-decreasing lexicographic order. -/
theorem C9_ordering :
    (∀ (planned : List String) (m : List (String × List String)),
      process_planned_dates planned = some m →
        (keysOf m).Pairwise (fun a b => a < b) ∧
        ∀ pr ∈ m, pr.2.Pairwise (fun a b : String => a ≤ b)) ∧
    (∀ l : List RawEntry,
      (keysOf (process_journal_entries l)).Pairwise (fun a b => a < b)) ∧
    (∀ (p : List (String × List String)) (e : List (String × DateAggregate)),
      (keysOf p).Nodup → (keysOf e).Nodup →
      (keysOf (compare_entries p e)).Pairwise (fun a b => a < b)) := by
  refine ⟨?_, ?_, ?_⟩
  · intro planned m hm
    unfold process_planned_dates at hm
    cases hb : buildPlanned planned [] with
    | none =>
      rw [hb] at hm
      exact absurd hm (by simp)
    | some m0 =>
      rw [hb] at hm
      simp only [Option.map_some'] at hm
      injection hm with hm
      subst hm
      have hnd0 : (keysOf m0).Nodup :=
        nodup_keys_buildPlanned planned [] (by simp [keysOf]) m0 hb
      have hndmap : (keysOf (m0.map (fun pr => (pr.1, sortLe strLe pr.2)))).Nodup := by
        rw [keysOf, List.map_map]
        exact hnd0
      constructor
      · exact pairwise_keys_sortByKey _ hndmap
      · intro pr hpr
        have hmem := (sortLe_perm _ _).mem_iff.mp hpr
        rw [List.mem_map] at hmem
        obtain ⟨q, hq, heq⟩ := hmem
        rw [← heq]
        have hs := pairwise_sortLe strLe strLe_total
          (fun a b c h1 h2 => strLe_trans h1 h2) q.2
        exact hs.imp (fun h => (strLe_iff _ _).mp h)
  · intro l
    exact pairwise_keys_sortByKey _ (nodup_keys_foldl l [] (by simp [keysOf]))
  · intro p e hp he
    rw [compare_entries_eq]
    exact pairwise_keys_sortByKey _ (nodup_keys_compareParts hp he)

/-- Witness for C9 at concrete inputs on both sides of the Reconciler. -/
theorem C9_witness :
    (keysOf (compare_entries [("2024-02-01", ["10:00:00"])]
      [("2024-01-10", initAggregate "N/A")])).Pairwise (fun a b => a < b) :=
  C9_ordering.2.2 [("2024-02-01", ["10:00:00"])] [("2024-01-10", initAggregate "N/A")]
    (by decide) (by decide)

/-- C10: in every EntryClassifier aggregate the total equals the
regular + independent + other split and also the sum of the histogram
values, and the same decomposition holds of the entered count in every
ComparisonRecord the Reconciler produces from a classifier output. -/
theorem C10_count_decomposition :
    (∀ (l : List RawEntry) (pr : String × DateAggregate),
      pr ∈ process_journal_entries l →
        pr.2.total_lessons =
          pr.2.regular_lessons + pr.2.independent_lessons + pr.2.other_lessons ∧
        pr.2.total_lessons = valsSum pr.2.entry_types) ∧
    (∀ (p : List (String × List String)) (l : List RawEntry)
      (pr : String × ComparisonRecord),
      pr ∈ compare_entries p (process_journal_entries l) →
        pr.2.entered_lessons =
          pr.2.regular_lessons + pr.2.independent_lessons + pr.2.other_lessons ∧
        pr.2.entered_lessons = valsSum pr.2.entry_types) := by
  have hpart1 : ∀ (l : List RawEntry) (pr : String × DateAggregate),
      pr ∈ process_journal_entries l → aggWF pr.2 := by
    intro l pr hpr
    have hmem := (sortLe_perm _ _).mem_iff.mp hpr
    exact aggWF_foldl l [] (by simp) pr hmem
  constructor
  · intro l pr hpr
    exact hpart1 l pr hpr
  · intro p l pr hpr
    rw [compare_entries_eq] at hpr
    have hmem := (sortLe_perm _ _).mem_iff.mp hpr
    rcases List.mem_append.mp hmem with hmem' | hmem'
    · rw [List.mem_map] at hmem'
      obtain ⟨q, hq, heq⟩ := hmem'
      rw [← heq]
      cases hf : alistFind (process_journal_entries l) q.1 with
      | none =>
        constructor
        · show (0 : Int) = 0 + 0 + 0
          norm_num
        · show (0 : Int) = valsSum []
          simp [valsSum]
      | some a =>
        obtain ⟨h1, h2⟩ := hpart1 l (q.1, a) (mem_of_alistFind_eq_some hf)
        exact ⟨h1, h2⟩
    · rw [List.mem_map] at hmem'
      obtain ⟨q, hq, heq⟩ := hmem'
      rw [← heq]
      obtain ⟨h1, h2⟩ := hpart1 l q (List.mem_of_mem_filter hq)
      exact ⟨h1, h2⟩

/-- A regular-lesson record used to witness the count decomposition. -/
def regularEntry : RawEntry :=
  { entryDate := some "2024-01-10T08:00:00Z", lessons := LessonsField.num 2,
    content := some "Intro", entryType := ETField.str "SISSEKANNE_T" }

/-- The aggregate the EntryClassifier builds from `regularEntry`. -/
def regularAgg : DateAggregate :=
  { entries := [regularEntry], total_lessons := 2, content := "Intro",
    regular_lessons := 2, independent_lessons := 0, other_lessons := 0,
    entry_types := [("SISSEKANNE_T", 2)] }

/-- Witness for C10 at a concrete classified batch. -/
theorem C10_witness :
    ("2024-01-10", regularAgg).2.total_lessons =
      ("2024-01-10", regularAgg).2.regular_lessons +
        ("2024-01-10", regularAgg).2.independent_lessons +
        ("2024-01-10", regularAgg).2.other_lessons ∧
    ("2024-01-10", regularAgg).2.total_lessons =
      valsSum ("2024-01-10", regularAgg).2.entry_types :=
  C10_count_decomposition.1 [regularEntry] ("2024-01-10", regularAgg) (by decide)
